import Mathlib

/-!
Verification of the phydms tree-likelihood engine and its helpers.

The definitions below are shallow embeddings of the code in
`phydmslib/treelikelihood.py` (node indexing, tip encoding, the flat
parameter projector, the update coordinator, and the post-order
partial-likelihood kernel with its derivative recursion) and of
`phydmslib/modeladequacy.py` (the p-value helper).  Machine floats are
modelled by real numbers where transcendental functions occur and by
rationals where the code only compares and copies values; external
collaborators (the substitution model, the numpy RNG, the constants
module) enter as explicit parameters or as definitions modelled from the
specification, each marked as such in its doc comment.
-/

namespace Phydms

/-- Decidable equality for `Except`, used to evaluate embedded fallible
functions at concrete inputs. -/
instance {ε α : Type} [DecidableEq ε] [DecidableEq α] : DecidableEq (Except ε α) :=
  fun x y =>
    match x, y with
    | .error a, .error b =>
      if h : a = b then .isTrue (by rw [h])
      else .isFalse (by intro hc; cases hc; exact h rfl)
    | .error _, .ok _ => .isFalse (by intro hc; cases hc)
    | .ok _, .error _ => .isFalse (by intro hc; cases hc)
    | .ok a, .ok b =>
      if h : a = b then .isTrue (by rw [h])
      else .isFalse (by intro hc; cases hc; exact h rfl)

/-! ### modeladequacy.calculate_pvalue -/

/-- Number of simulation values strictly greater than the true value,
embedding `scipy.sum(scipy.greater(simulation_values, true_value))`. -/
def countGreater (sims : List ℚ) (tv : ℚ) : ℕ :=
  (sims.filter (fun v => decide (tv < v))).length

/-- Number of simulation values equal to the true value, embedding
`scipy.sum(scipy.equal(simulation_values, true_value))`. -/
def countEqual (sims : List ℚ) (tv : ℚ) : ℕ :=
  (sims.filter (fun v => decide (v = tv))).length

/-- Embedding of `modeladequacy.calculate_pvalue`.  The value drawn by
`scipy.random.randint(tie_breaker, size=1)[0]` is an external input of the
numpy RNG and is passed in as `draw`; the code draws it uniformly from
`{0, ..., ties - 1}` and only when `ties >= 1`.  The two `assert`
statements of the source are rendered as `Except.error`. -/
def calculate_pvalue (sims : List ℚ) (tv : ℚ) (draw : ℕ) : Except String ℚ :=
  if sims.length < 2 then Except.error "Must have at least two simulations."
  else
    let greater := countGreater sims tv
    let ties := countEqual sims tv
    let tie_breaker := if 1 ≤ ties then draw else ties
    let pvalue : ℚ := (greater + tie_breaker + 1) / (sims.length + 1)
    if 0 ≤ pvalue ∧ pvalue ≤ 1 then Except.ok pvalue
    else Except.error "pvalue is greater than 1.0 or less than 0.0"

lemma countGreater_add_countEqual_le (sims : List ℚ) (tv : ℚ) :
    countGreater sims tv + countEqual sims tv ≤ sims.length := by
  induction sims with
  | nil => simp [countGreater, countEqual]
  | cons v l ih =>
    simp only [countGreater, countEqual, List.length_cons] at *
    by_cases h1 : tv < v
    · have h2 : ¬(v = tv) := fun h => absurd h1 (by rw [h]; exact lt_irrefl tv)
      rw [List.filter_cons_of_pos (by simpa using h1),
        List.filter_cons_of_neg (by simpa using h2)]
      simp only [List.length_cons]
      omega
    · by_cases h2 : v = tv
      · rw [List.filter_cons_of_neg (by simpa using h1),
          List.filter_cons_of_pos (by simpa using h2)]
        simp only [List.length_cons]
        omega
      · rw [List.filter_cons_of_neg (by simpa using h1),
          List.filter_cons_of_neg (by simpa using h2)]
        omega

lemma countGreater_le (sims : List ℚ) (tv : ℚ) :
    countGreater sims tv ≤ sims.length :=
  le_trans (Nat.le_add_right _ _) (countGreater_add_countEqual_le sims tv)

/-- C9: when no simulation value ties with the true value the returned
p-value is exactly `(greater + 1) / (n + 1)` with `greater` the number of
simulation values strictly above the true value and `n` the number of
simulation values; in particular `calculate_pvalue [11,12,13,14] 10`
returns `1.0`, and with the seed-1 tie-break draw (which the module's own
doctest records as producing `0.6`, i.e. a draw of `1`),
`calculate_pvalue [1,10,10,11] 10 1` returns `0.6 = 3/5`. -/
theorem calculate_pvalue_spec (sims : List ℚ) (tv : ℚ) (d : ℕ)
    (h2 : 2 ≤ sims.length) (hne : countEqual sims tv = 0) :
    calculate_pvalue sims tv d
      = Except.ok (((countGreater sims tv : ℚ) + 1) / ((sims.length : ℚ) + 1))
    ∧ calculate_pvalue [11, 12, 13, 14] 10 0 = Except.ok 1
    ∧ calculate_pvalue [1, 10, 10, 11] 10 1 = Except.ok (3 / 5) := by
  refine ⟨?_, by norm_num [calculate_pvalue, countGreater, countEqual],
    by norm_num [calculate_pvalue, countGreater, countEqual]⟩
  have hlen : ¬(sims.length < 2) := by omega
  have hg : countGreater sims tv ≤ sims.length := countGreater_le sims tv
  have hden : (0 : ℚ) < (sims.length : ℚ) + 1 := by positivity
  have hnum1 : (countGreater sims tv : ℚ) + 0 + 1 ≤ (sims.length : ℚ) + 1 := by
    have : (countGreater sims tv : ℚ) ≤ (sims.length : ℚ) := by exact_mod_cast hg
    linarith
  have htie : ¬(1 ≤ (0 : ℕ)) := by omega
  simp only [calculate_pvalue, hlen, if_false, hne, htie, Nat.cast_zero]
  rw [if_pos ⟨by positivity, by rw [div_le_one hden]; exact hnum1⟩]
  norm_num

/-- Closed witness for `calculate_pvalue_spec`. -/
theorem calculate_pvalue_spec_witness :
    2 ≤ ([11, 12, 13, 14] : List ℚ).length ∧ countEqual [11, 12, 13, 14] 10 = 0 ∧
    (calculate_pvalue [11, 12, 13, 14] 10 0
        = Except.ok (((countGreater [11, 12, 13, 14] 10 : ℚ) + 1)
            / ((([11, 12, 13, 14] : List ℚ).length : ℚ) + 1))
      ∧ calculate_pvalue [11, 12, 13, 14] 10 0 = Except.ok 1
      ∧ calculate_pvalue [1, 10, 10, 11] 10 1 = Except.ok (3 / 5)) :=
  ⟨by decide, by decide,
    calculate_pvalue_spec [11, 12, 13, 14] 10 0 (by decide) (by decide)⟩

/-- C10: for any simulation list of length at least 2, any true value and
any admissible tie-break draw (below the tie count whenever there are
ties), `calculate_pvalue` succeeds — its closing assertion never fails —
and the returned p-value lies in `[1/(n+1), 1]`; in particular it is never
`0`. -/
theorem calculate_pvalue_bounds (sims : List ℚ) (tv : ℚ) (d : ℕ)
    (h2 : 2 ≤ sims.length)
    (hd : 1 ≤ countEqual sims tv → d < countEqual sims tv) :
    ∃ p, calculate_pvalue sims tv d = Except.ok p
      ∧ 1 / ((sims.length : ℚ) + 1) ≤ p ∧ p ≤ 1 := by
  have hlen : ¬(sims.length < 2) := by omega
  have hsum : countGreater sims tv + countEqual sims tv ≤ sims.length :=
    countGreater_add_countEqual_le sims tv
  have hden : (0 : ℚ) < (sims.length : ℚ) + 1 := by positivity
  set g := countGreater sims tv with hgdef
  set e := countEqual sims tv with hedef
  have htb : g + (if 1 ≤ e then d else e) + 1 ≤ sims.length + 1 := by
    by_cases he : 1 ≤ e
    · have hde : d < e := hd he
      simp only [he, if_true]
      omega
    · have he0 : e = 0 := by omega
      simp only [he, if_false]
      omega
  set tb := if 1 ≤ e then d else e with htbdef
  have hnumub : ((g : ℚ) + (tb : ℚ) + 1) ≤ ((sims.length : ℚ) + 1) := by
    have h := htb
    have : ((g : ℚ) + (tb : ℚ)) ≤ (sims.length : ℚ) := by exact_mod_cast (by omega : g + tb ≤ sims.length)
    linarith
  have hnumlb : (1 : ℚ) ≤ (g : ℚ) + (tb : ℚ) + 1 := by
    have : (0 : ℚ) ≤ (g : ℚ) + (tb : ℚ) := by positivity
    linarith
  refine ⟨((g : ℚ) + (tb : ℚ) + 1) / ((sims.length : ℚ) + 1), ?_, ?_, ?_⟩
  · simp only [calculate_pvalue, hlen, if_false]
    rw [if_pos ⟨by positivity, by rw [div_le_one hden]; exact hnumub⟩]
  · gcongr
  · rw [div_le_one hden]
    exact hnumub

/-- Closed witness for `calculate_pvalue_bounds`. -/
theorem calculate_pvalue_bounds_witness :
    2 ≤ ([1, 2, 3] : List ℚ).length ∧
    (1 ≤ countEqual [1, 2, 3] 2 → 0 < countEqual [1, 2, 3] 2) ∧
    ∃ p, calculate_pvalue [1, 2, 3] 2 0 = Except.ok p
      ∧ 1 / ((([1, 2, 3] : List ℚ).length : ℚ) + 1) ≤ p ∧ p ≤ 1 :=
  ⟨by decide, by decide,
    calculate_pvalue_bounds [1, 2, 3] 2 0 (by decide) (by decide)⟩

/-! ### Node indexing (`TreeLikelihood.__init__`) -/

/-- A parsed rooted strictly bifurcating tree as consumed by
`TreeLikelihood.__init__` after its two-children assertion: a clade is
either a terminal (tip) or has exactly the two child clades `clades[0]`
and `clades[1]`. -/
inductive PTree where
  | tip : PTree
  | node : PTree → PTree → PTree

/-- Number of terminal clades of a subtree (`tree.count_terminals()`). -/
def ntipsT : PTree → ℕ
  | .tip => 1
  | .node l r => ntipsT l + ntipsT r

/-- Number of internal clades of a subtree
(`len(tree.get_nonterminals())`). -/
def nintT : PTree → ℕ
  | .tip => 0
  | .node l r => nintT l + nintT r + 1

/-- Index assigned by `TreeLikelihood.__init__` to the root clade of a
subtree: enumerating `tipnodes + internalnodes` from the
`find_clades(order='postorder')` walk places tips at `0 … ntips−1` in
left-to-right leaf order and internal clades at `ntips … nnodes−1` in
postorder.  `N` is the total tip count of the full tree, `tOff` the number
of tips emitted before this subtree, `iOff` the number of internal clades
emitted before it. -/
def nodeIdx (N : ℕ) : PTree → ℕ → ℕ → ℕ
  | .tip, tOff, _ => tOff
  | .node l r, _, iOff => N + iOff + nintT l + nintT r

/-- The `(m, rdescend, ldescend)` rows recorded by
`TreeLikelihood.__init__`: for each internal clade, in the order the
postorder walk reaches it, its own index `m`, the index of `clades[0]`
(stored in `rdescend[m − ntips]`) and the index of `clades[1]` (stored in
`ldescend[m − ntips]`). -/
def buildIndex (N : ℕ) : PTree → ℕ → ℕ → List (ℕ × ℕ × ℕ)
  | .tip, _, _ => []
  | .node l r, tOff, iOff =>
    buildIndex N l tOff iOff
      ++ buildIndex N r (tOff + ntipsT l) (iOff + nintT l)
      ++ [(N + iOff + nintT l + nintT r,
           nodeIdx N l tOff iOff,
           nodeIdx N r (tOff + ntipsT l) (iOff + nintT l))]

/-- Indices assigned to the tips of a subtree, in leaf order, embedding
the enumeration of `tipnodes`. -/
def tipIdxs : PTree → ℕ → List ℕ
  | .tip, tOff => [tOff]
  | .node l r, tOff => tipIdxs l tOff ++ tipIdxs r (tOff + ntipsT l)

lemma ntipsT_pos : ∀ T : PTree, 1 ≤ ntipsT T
  | .tip => le_refl 1
  | .node l r => by
    have hl := ntipsT_pos l
    simp only [ntipsT]
    omega

lemma range'_glue (s m n : ℕ) :
    List.range' s m ++ List.range' (s + m) n = List.range' s (m + n) := by
  rw [Nat.add_comm m n]
  have h := List.range'_append s m n 1
  simp only [one_mul] at h
  exact h

lemma tipIdxs_eq_range' : ∀ (T : PTree) (tOff : ℕ),
    tipIdxs T tOff = List.range' tOff (ntipsT T)
  | .tip, tOff => by simp [tipIdxs, ntipsT]
  | .node l r, tOff => by
    simp only [tipIdxs, ntipsT, tipIdxs_eq_range' l, tipIdxs_eq_range' r]
    exact range'_glue tOff (ntipsT l) (ntipsT r)

lemma buildIndex_map_fst (N : ℕ) : ∀ (T : PTree) (tOff iOff : ℕ),
    (buildIndex N T tOff iOff).map Prod.fst = List.range' (N + iOff) (nintT T)
  | .tip, _, _ => by simp [buildIndex, nintT]
  | .node l r, tOff, iOff => by
    simp only [buildIndex, List.map_append, buildIndex_map_fst N l,
      buildIndex_map_fst N r, List.map_cons, List.map_nil, nintT]
    rw [show N + (iOff + nintT l) = N + iOff + nintT l from by omega,
      show ([N + iOff + nintT l + nintT r] : List ℕ)
          = List.range' (N + iOff + nintT l + nintT r) 1 from by simp,
      List.append_assoc, range'_glue, range'_glue, Nat.add_assoc]

lemma buildIndex_children_lt (N : ℕ) : ∀ (T : PTree) (tOff iOff : ℕ),
    tOff + ntipsT T ≤ N →
    ∀ x ∈ buildIndex N T tOff iOff, x.2.1 < x.1 ∧ x.2.2 < x.1
  | .tip, _, _, _ => by simp [buildIndex]
  | .node l r, tOff, iOff, hN => by
    intro x hx
    have hlp := ntipsT_pos l
    have hrp := ntipsT_pos r
    simp only [ntipsT] at hN
    simp only [buildIndex, List.mem_append, List.mem_singleton] at hx
    rcases hx with (hx | hx) | hx
    · exact buildIndex_children_lt N l tOff iOff (by omega) x hx
    · exact buildIndex_children_lt N r (tOff + ntipsT l) (iOff + nintT l)
        (by omega) x hx
    · subst hx
      constructor
      · cases l with
        | tip => simp only [nodeIdx, nintT]; omega
        | node a b => simp only [nodeIdx, nintT]; omega
      · cases r with
        | tip =>
          simp only [nodeIdx, nintT, ntipsT] at *
          omega
        | node a b => simp only [nodeIdx, nintT]; omega

/-- C4: for a tree that constructs successfully (root internal, every
internal clade binary), the indexing built by `TreeLikelihood.__init__`
assigns the tips the indices `0 … ntips−1` (in leaf order), assigns the
internal clades exactly the indices `ntips … nnodes−1` in postorder, gives
the root the last index `nnodes−1`, and records for every internal node
`m` two child indices that are strictly less than `m`, so an ascending
pass over `ntips … nnodes−1` always visits children before parents. -/
theorem nodeIndexing_spec (l r : PTree) :
    (buildIndex (ntipsT (PTree.node l r)) (PTree.node l r) 0 0).map Prod.fst
        = List.range' (ntipsT (PTree.node l r)) (nintT (PTree.node l r))
    ∧ (∀ x ∈ buildIndex (ntipsT (PTree.node l r)) (PTree.node l r) 0 0,
        x.2.1 < x.1 ∧ x.2.2 < x.1)
    ∧ tipIdxs (PTree.node l r) 0 = List.range (ntipsT (PTree.node l r))
    ∧ nodeIdx (ntipsT (PTree.node l r)) (PTree.node l r) 0 0
        = ntipsT (PTree.node l r) + nintT (PTree.node l r) - 1 := by
  refine ⟨?_, ?_, ?_, ?_⟩
  · simpa using buildIndex_map_fst (ntipsT (PTree.node l r)) (PTree.node l r) 0 0
  · exact buildIndex_children_lt _ _ 0 0 (by omega)
  · rw [tipIdxs_eq_range']
    exact (List.range_eq_range' _).symm
  · simp only [nodeIdx, nintT, ntipsT]
    omega

/-- Closed witness for `nodeIndexing_spec`, at the two-tip cherry tree. -/
theorem nodeIndexing_spec_witness :
    (buildIndex (ntipsT (PTree.node PTree.tip PTree.tip))
          (PTree.node PTree.tip PTree.tip) 0 0).map Prod.fst
        = List.range' (ntipsT (PTree.node PTree.tip PTree.tip))
            (nintT (PTree.node PTree.tip PTree.tip))
    ∧ (∀ x ∈ buildIndex (ntipsT (PTree.node PTree.tip PTree.tip))
          (PTree.node PTree.tip PTree.tip) 0 0,
        x.2.1 < x.1 ∧ x.2.2 < x.1)
    ∧ tipIdxs (PTree.node PTree.tip PTree.tip) 0
        = List.range (ntipsT (PTree.node PTree.tip PTree.tip))
    ∧ nodeIdx (ntipsT (PTree.node PTree.tip PTree.tip))
          (PTree.node PTree.tip PTree.tip) 0 0
        = ntipsT (PTree.node PTree.tip PTree.tip)
            + nintT (PTree.node PTree.tip PTree.tip) - 1 :=
  nodeIndexing_spec PTree.tip PTree.tip

/-! ### Flat parameter projector (`_index_to_param`, `paramsarraybounds`) -/

/-- A free-parameter value as `TreeLikelihood` dispatches on it: either a
Python `float` or a 1-dimensional `scipy.ndarray` (any other shape is a
fatal construction error). -/
inductive PVal (α : Type) where
  | scalar : α → PVal α
  | vector : List α → PVal α
deriving DecidableEq

/-- An `_index_to_param` entry: a parameter name (scalar parameter) or a
`(name, component)` pair (vector parameter). -/
inductive Slot where
  | scalar : String → Slot
  | component : String → ℕ → Slot
deriving DecidableEq

/-- The parameter name a slot refers to. -/
def slotName : Slot → String
  | .scalar p => p
  | .component p _ => p

/-- Embedding of the `_index_to_param` construction loop of
`TreeLikelihood.__init__`: iterate `model.freeparams` in declared order
with a running slot counter `i`; a scalar parameter takes one slot, a
length-`k` vector parameter takes slots `i, i+1, …, i+k−1` tagged with its
component indices. -/
def buildIndexToParam {α : Type} (gp : String → PVal α) :
    List String → ℕ → List (ℕ × Slot)
  | [], _ => []
  | p :: rest, i =>
    match gp p with
    | .scalar _ => (i, Slot.scalar p) :: buildIndexToParam gp rest (i + 1)
    | .vector v =>
      ((List.range v.length).map (fun j => (i + j, Slot.component p j)))
        ++ buildIndexToParam gp rest (i + v.length)

/-- The slot list as the specification words it: the concatenation, in the
model-declared order of `freeparams`, of each parameter's components
(scalar = one slot; length-`k` vector = `k` consecutive slots in component
order).  This is the refinement target `buildIndexToParam` is compared
against. -/
def slotsSpec {α : Type} (gp : String → PVal α) (fp : List String) : List Slot :=
  fp.flatMap (fun p =>
    match gp p with
    | .scalar _ => [Slot.scalar p]
    | .vector v => (List.range v.length).map (Slot.component p))

/-- Embedding of the `paramsarraybounds` property: one
`model.PARAMLIMITS` pair per `_index_to_param` slot, read off the slot's
parameter name (`param` for a string slot, `param[0]` for a tuple slot). -/
def paramsarraybounds {β : Type} (PARAMLIMITS : String → β)
    (slots : List Slot) : List β :=
  slots.map (fun s =>
    match s with
    | Slot.scalar p => PARAMLIMITS p
    | Slot.component p _ => PARAMLIMITS p)

lemma buildIndexToParam_snd {α : Type} (gp : String → PVal α) :
    ∀ (fp : List String) (i : ℕ),
      (buildIndexToParam gp fp i).map Prod.snd = slotsSpec gp fp
  | [], _ => rfl
  | p :: rest, i => by
    simp only [slotsSpec, List.flatMap_cons]
    cases hgp : gp p with
    | scalar v =>
      simp only [buildIndexToParam, hgp, List.map_cons,
        buildIndexToParam_snd gp rest]
      rfl
    | vector v =>
      simp only [buildIndexToParam, hgp, List.map_append, List.map_map,
        buildIndexToParam_snd gp rest, slotsSpec]
      rfl

lemma buildIndexToParam_fst {α : Type} (gp : String → PVal α) :
    ∀ (fp : List String) (i : ℕ),
      (buildIndexToParam gp fp i).map Prod.fst
        = List.range' i (slotsSpec gp fp).length
  | [], _ => rfl
  | p :: rest, i => by
    simp only [slotsSpec, List.flatMap_cons, List.length_append]
    cases hgp : gp p with
    | scalar v =>
      simp only [buildIndexToParam, hgp, List.map_cons,
        buildIndexToParam_fst gp rest, List.length_singleton, slotsSpec]
      rw [Nat.add_comm 1 _, ← List.range'_succ]
    | vector v =>
      simp only [buildIndexToParam, hgp, List.map_append, List.map_map,
        buildIndexToParam_fst gp rest, List.length_map, List.range_eq_range',
        slotsSpec]
      have hmap : (List.range' 0 v.length).map
            ((fun q : ℕ × Slot => q.1) ∘ fun j => (i + j, Slot.component p j))
          = List.range' i v.length := by
        rw [show ((fun q : ℕ × Slot => q.1) ∘ fun j => (i + j, Slot.component p j))
            = (fun j => i + j) from rfl, ← List.range_eq_range',
          ← List.range'_eq_map_range]
      rw [show (Prod.fst ∘ fun j => (i + j, Slot.component p j))
          = ((fun q : ℕ × Slot => q.1) ∘ fun j => (i + j, Slot.component p j))
          from rfl, hmap, List.length_range', range'_glue]

/-- C7: the flat parameter map enumerates `model.freeparams` in declared
order, with one slot per scalar parameter and `k` consecutive slots in
component order for a length-`k` vector parameter, the slot indices being
exactly `0, 1, …`; and `paramsarraybounds` returns exactly one
`PARAMLIMITS` pair per slot, namely the pair of that slot's parameter
name, repeated for every component of a vector parameter. -/
theorem indexToParam_spec {α β : Type} (gp : String → PVal α) (fp : List String)
    (PARAMLIMITS : String → β) :
    (buildIndexToParam gp fp 0).map Prod.snd = slotsSpec gp fp
    ∧ (buildIndexToParam gp fp 0).map Prod.fst
        = List.range (slotsSpec gp fp).length
    ∧ paramsarraybounds PARAMLIMITS ((buildIndexToParam gp fp 0).map Prod.snd)
        = (slotsSpec gp fp).map (fun s => PARAMLIMITS (slotName s)) := by
  refine ⟨buildIndexToParam_snd gp fp 0, ?_, ?_⟩
  · rw [buildIndexToParam_fst gp fp 0, List.range_eq_range']
  · rw [buildIndexToParam_snd gp fp 0]
    unfold paramsarraybounds
    congr 1
    funext s
    cases s <;> rfl

/-! ### Update coordinator (`updateParams`, the `paramsarray` property) -/

/-- State touched by `TreeLikelihood.updateParams` and the `paramsarray`
property: the model's current parameter values (held by mutable
reference), every cached likelihood quantity (`L`, `dL`, `siteloglik`,
`loglik`, `dsiteloglik`, `dloglik` and hence `dloglikarray`) abstracted
into the single field `cache` recomputed by `_updateInternals`, the cached
flat-parameter snapshot `_paramsarray`, and two instrumentation counters
recording how often `model.updateParams` and `_updateInternals` have been
invoked. -/
structure Coord (α C : Type) where
  modelVals : String → PVal α
  cache : C
  snapshot : Option (List α)
  modelUpdates : ℕ
  kernelRuns : ℕ

/-- Modelled from the spec: the external model's `updateParams` applies a
partial parameter update to the model's values (substitution-model
contract, spec section 6.1).  Used to build concrete instances; the
theorems keep the model update abstract as `applyM`. -/
def applyAssign {α : Type} (m : String → PVal α)
    (kvs : List (String × PVal α)) : String → PVal α :=
  fun s =>
    match kvs.lookup s with
    | some v => v
    | none => m s

/-- Embedding of `TreeLikelihood.updateParams`: partition `newvalues` into
model parameters (keys in `model.freeparams`) and others; if there are
model parameters, forward them to the model's update (`applyM`); then, if
there are other parameters, raise `RuntimeError` (returned flag `true`);
otherwise, if `newvalues` was non-empty, re-run `_updateInternals`
(`recompute`) and invalidate the flat-parameter snapshot. -/
def updateParams {α C : Type} (fp : List String)
    (applyM : (String → PVal α) → List (String × PVal α) → String → PVal α)
    (recompute : (String → PVal α) → C)
    (st : Coord α C) (newvalues : List (String × PVal α)) : Coord α C × Bool :=
  let modelparams := newvalues.filter (fun kv => decide (kv.1 ∈ fp))
  let otherparams := newvalues.filter (fun kv => decide (kv.1 ∉ fp))
  let st1 := if modelparams.isEmpty then st
    else { st with modelVals := applyM st.modelVals modelparams,
                   modelUpdates := st.modelUpdates + 1 }
  if ¬otherparams.isEmpty then (st1, true)
  else if ¬newvalues.isEmpty then
    ({ st1 with cache := recompute st1.modelVals,
                kernelRuns := st1.kernelRuns + 1,
                snapshot := none }, false)
  else (st1, false)

lemma updateParams_raises {α C : Type} (fp : List String)
    (applyM : (String → PVal α) → List (String × PVal α) → String → PVal α)
    (recompute : (String → PVal α) → C)
    (st : Coord α C) (newvalues : List (String × PVal α))
    (h : (newvalues.filter (fun kv => decide (kv.1 ∉ fp))).isEmpty = false) :
    updateParams fp applyM recompute st newvalues
      = (if (newvalues.filter (fun kv => decide (kv.1 ∈ fp))).isEmpty then st
         else { st with
             modelVals := applyM st.modelVals
               (newvalues.filter (fun kv => decide (kv.1 ∈ fp))),
             modelUpdates := st.modelUpdates + 1 }, true) := by
  simp only [updateParams, h]
  simp

/-- C5 (amended): any assignment containing a key outside
`model.freeparams` makes `updateParams` raise, and the raise happens
before `_updateInternals`, so every cached engine quantity and the
flat-parameter snapshot are left unchanged; the model itself is left
unchanged when the assignment contains no `model.freeparams` key, but
model keys present in the same failing assignment are forwarded to the
model before the error is raised. -/
theorem updateParams_nonmodel_spec {α C : Type} (fp : List String)
    (applyM : (String → PVal α) → List (String × PVal α) → String → PVal α)
    (recompute : (String → PVal α) → C)
    (st : Coord α C) (newvalues : List (String × PVal α))
    (hbad : ∃ kv ∈ newvalues, kv.1 ∉ fp) :
    (updateParams fp applyM recompute st newvalues).2 = true
    ∧ (updateParams fp applyM recompute st newvalues).1.cache = st.cache
    ∧ (updateParams fp applyM recompute st newvalues).1.kernelRuns
        = st.kernelRuns
    ∧ (updateParams fp applyM recompute st newvalues).1.snapshot = st.snapshot
    ∧ ((∀ kv ∈ newvalues, kv.1 ∉ fp) →
        (updateParams fp applyM recompute st newvalues).1 = st) := by
  have hother : (newvalues.filter (fun kv => decide (kv.1 ∉ fp))).isEmpty
      = false := by
    obtain ⟨kv, hmem, hnot⟩ := hbad
    have hkv : kv ∈ newvalues.filter (fun kv => decide (kv.1 ∉ fp)) :=
      List.mem_filter.mpr ⟨hmem, by simpa using hnot⟩
    cases hopE : (newvalues.filter (fun kv => decide (kv.1 ∉ fp))).isEmpty with
    | false => rfl
    | true =>
      rw [List.isEmpty_iff] at hopE
      rw [hopE] at hkv
      simp at hkv
  rw [updateParams_raises fp applyM recompute st newvalues hother]
  refine ⟨rfl, ?_, ?_, ?_, ?_⟩
  · split <;> rfl
  · split <;> rfl
  · split <;> rfl
  · intro hall
    have hmp : newvalues.filter (fun kv => decide (kv.1 ∈ fp)) = [] := by
      rw [List.filter_eq_nil_iff]
      intro kv hkv
      simpa using hall kv hkv
    simp [hmp]

/-- C5 counterexample: against `freeparams = ["a"]`, the mixed assignment
`{"a": 5, "b": 7}` fails because of the non-model key `"b"` (the call
raises), yet the model parameter `"a"` has already been forwarded to the
model, so the model's parameters are not left unchanged — refuting the
claim as stated. -/
theorem updateParams_nonmodel_cex :
    ((updateParams ["a"] applyAssign (fun _ => (0 : ℕ))
        ⟨fun _ => PVal.scalar (0 : ℕ), 0, none, 0, 0⟩
        [("a", PVal.scalar 5), ("b", PVal.scalar 7)]).2 = true)
    ∧ ¬((updateParams ["a"] applyAssign (fun _ => (0 : ℕ))
        ⟨fun _ => PVal.scalar (0 : ℕ), 0, none, 0, 0⟩
        [("a", PVal.scalar 5), ("b", PVal.scalar 7)]).1.modelVals "a"
      = PVal.scalar 0) := by
  constructor
  · decide
  · decide

/-- Closed witness for `updateParams_nonmodel_spec`. -/
theorem updateParams_nonmodel_spec_witness :
    (∃ kv ∈ [(("b" : String), PVal.scalar (7 : ℕ))], kv.1 ∉ ["a"]) ∧
    ((updateParams ["a"] applyAssign (fun _ => (0 : ℕ))
        ⟨fun _ => PVal.scalar (0 : ℕ), 0, none, 0, 0⟩
        [("b", PVal.scalar 7)]).2 = true
    ∧ (updateParams ["a"] applyAssign (fun _ => (0 : ℕ))
        ⟨fun _ => PVal.scalar (0 : ℕ), 0, none, 0, 0⟩
        [("b", PVal.scalar 7)]).1.cache
      = (⟨fun _ => PVal.scalar (0 : ℕ), 0, none, 0, 0⟩ : Coord ℕ ℕ).cache
    ∧ (updateParams ["a"] applyAssign (fun _ => (0 : ℕ))
        ⟨fun _ => PVal.scalar (0 : ℕ), 0, none, 0, 0⟩
        [("b", PVal.scalar 7)]).1.kernelRuns
      = (⟨fun _ => PVal.scalar (0 : ℕ), 0, none, 0, 0⟩ : Coord ℕ ℕ).kernelRuns
    ∧ (updateParams ["a"] applyAssign (fun _ => (0 : ℕ))
        ⟨fun _ => PVal.scalar (0 : ℕ), 0, none, 0, 0⟩
        [("b", PVal.scalar 7)]).1.snapshot
      = (⟨fun _ => PVal.scalar (0 : ℕ), 0, none, 0, 0⟩ : Coord ℕ ℕ).snapshot
    ∧ ((∀ kv ∈ [(("b" : String), PVal.scalar (7 : ℕ))], kv.1 ∉ ["a"]) →
        (updateParams ["a"] applyAssign (fun _ => (0 : ℕ))
            ⟨fun _ => PVal.scalar (0 : ℕ), 0, none, 0, 0⟩
            [("b", PVal.scalar 7)]).1
          = ⟨fun _ => PVal.scalar (0 : ℕ), 0, none, 0, 0⟩)) :=
  ⟨by decide,
    updateParams_nonmodel_spec ["a"] applyAssign (fun _ => (0 : ℕ))
      ⟨fun _ => PVal.scalar (0 : ℕ), 0, none, 0, 0⟩
      [("b", PVal.scalar 7)] (by decide)⟩

/-- Reading a `PVal` at a component index: a scalar yields its value
(`getattr(self.model, param)`), a vector yields the indexed component
(`getattr(self.model, param[0])[param[1]]`). -/
def pvalRead {α : Type} [Inhabited α] : PVal α → ℕ → α
  | .scalar v, _ => v
  | .vector l, j => l.getD j default

/-- Reading one flat-array slot from the model. -/
def readSlot {α : Type} [Inhabited α] (m : String → PVal α) : Slot → α
  | .scalar p => pvalRead (m p) 0
  | .component p j => pvalRead (m p) j

/-- Embedding of the `paramsarray` property getter: return (a copy of) the
cached `_paramsarray` if it is set; otherwise read every slot from the
model, cache the array and return it. -/
def paramsarrayGet {α C : Type} [Inhabited α] (slots : List Slot)
    (st : Coord α C) : List α × Coord α C :=
  match st.snapshot with
  | some a => (a, st)
  | none =>
    let a := slots.map (readSlot st.modelVals)
    (a, { st with snapshot := some a })

/-- Scalar entries of the `newvalues` dictionary built by the
`paramsarray` setter, inserted during the slot loop in slot order. -/
def scalarNewvalues {α : Type} [Inhabited α] (slots : List Slot)
    (value : List α) : List (String × PVal α) :=
  slots.enum.filterMap (fun iq =>
    match iq.2 with
    | Slot.scalar p => some (p, PVal.scalar (value.getD iq.1 default))
    | Slot.component _ _ => none)

/-- Vector parameter names in first-slot order (the iteration order of the
`vectorized_params` dictionary). -/
def vectorNames (slots : List Slot) : List String :=
  (slots.filterMap (fun s =>
    match s with
    | Slot.component p _ => some p
    | Slot.scalar _ => none)).dedup

/-- The `(component, value)` pairs the setter collects for vector
parameter `p`. -/
def componentsOf {α : Type} [Inhabited α] (slots : List Slot) (value : List α)
    (p : String) : List (ℕ × α) :=
  slots.enum.filterMap (fun iq =>
    match iq.2 with
    | Slot.component q j =>
      if q = p then some (j, value.getD iq.1 default) else none
    | Slot.scalar _ => none)

/-- The two setter assertions for a vector parameter: no component index
is collected twice, and the set of collected indices is exactly
`{0, …, k−1}`. -/
def vectorOk (slots : List Slot) (p : String) : Bool :=
  let js := slots.filterMap (fun s =>
    match s with
    | Slot.component q j => if q = p then some j else none
    | Slot.scalar _ => none)
  decide js.Nodup && decide (∀ k, k < js.length → k ∈ js)

/-- The dense vector the setter assembles for a vector parameter
(`scipy.array([paramd[i] for i in range(len(paramd))])`). -/
def assembleVector {α : Type} [Inhabited α] (comps : List (ℕ × α)) : PVal α :=
  PVal.vector ((List.range comps.length).map (fun i =>
    match comps.lookup i with
    | some v => v
    | none => default))

/-- The `newvalues` dictionary built by the `paramsarray` setter: scalar
slots first (inserted during the slot loop), then one assembled vector per
vector parameter (inserted during the `vectorized_params` loop). -/
def buildNewvalues {α : Type} [Inhabited α] (slots : List Slot)
    (value : List α) : List (String × PVal α) :=
  scalarNewvalues slots value
    ++ (vectorNames slots).map (fun p =>
        (p, assembleVector (componentsOf slots value p)))

/-- The non-early-return path of the `paramsarray` setter: check the
vector-inversion assertions, build `newvalues`, call `updateParams`, then
refresh the snapshot via the getter (`self._paramsarray = self.paramsarray`).
The returned flag is `true` when an assertion or `updateParams` raised. -/
def paramsarraySetFull {α C : Type} [DecidableEq α] [Inhabited α]
    (fp : List String) (slots : List Slot)
    (applyM : (String → PVal α) → List (String × PVal α) → String → PVal α)
    (recompute : (String → PVal α) → C)
    (st : Coord α C) (value : List α) : Coord α C × Bool :=
  if (vectorNames slots).all (vectorOk slots) then
    let res := updateParams fp applyM recompute st (buildNewvalues slots value)
    if res.2 then res
    else
      let g := paramsarrayGet slots res.1
      ({ g.2 with snapshot := some g.1 }, false)
  else (st, true)

/-- Embedding of the `paramsarray` setter: assert the assigned array has
one entry per slot, return immediately when it equals the cached snapshot
element-wise, and otherwise run the full inversion path. -/
def paramsarraySet {α C : Type} [DecidableEq α] [Inhabited α]
    (fp : List String) (slots : List Slot)
    (applyM : (String → PVal α) → List (String × PVal α) → String → PVal α)
    (recompute : (String → PVal α) → C)
    (st : Coord α C) (value : List α) : Coord α C × Bool :=
  if value.length ≠ slots.length then (st, true)
  else
    match st.snapshot with
    | some a =>
      if value = a then (st, false)
      else paramsarraySetFull fp slots applyM recompute st value
    | none => paramsarraySetFull fp slots applyM recompute st value

/-- The snapshot invariant every reachable engine state satisfies: the
cached `_paramsarray`, when set, has one entry per flat-parameter slot
(it is only ever written from getter results). -/
def consistentSnap {α C : Type} (slots : List Slot) (st : Coord α C) : Prop :=
  ∀ a, st.snapshot = some a → a.length = slots.length

/-- C6: for an engine in a consistent state, reading `paramsarray` and
assigning the identical array back is a no-op — the setter returns without
raising, without invoking the model's update and without re-running the
kernel, and the model values, every cached quantity and the snapshot are
unchanged (bit-identical); more generally any assigned array element-wise
equal to the cached snapshot is such a no-op. -/
theorem paramsarray_roundtrip_spec {α C : Type} [DecidableEq α] [Inhabited α]
    (fp : List String) (slots : List Slot)
    (applyM : (String → PVal α) → List (String × PVal α) → String → PVal α)
    (recompute : (String → PVal α) → C)
    (st : Coord α C) (hc : consistentSnap slots st) :
    paramsarraySet fp slots applyM recompute (paramsarrayGet slots st).2
        (paramsarrayGet slots st).1 = ((paramsarrayGet slots st).2, false)
    ∧ ∀ value a, st.snapshot = some a → value = a →
        paramsarraySet fp slots applyM recompute st value = (st, false) := by
  constructor
  · cases hsnap : st.snapshot with
    | some a =>
      have hlen : a.length = slots.length := hc a hsnap
      simp only [paramsarrayGet, hsnap]
      simp only [paramsarraySet, hsnap]
      rw [if_neg (by omega : ¬a.length ≠ slots.length)]
      simp
    | none =>
      simp only [paramsarrayGet, hsnap]
      simp only [paramsarraySet]
      rw [if_neg (by
        simp only [List.length_map]
        omega : ¬(slots.map (readSlot st.modelVals)).length ≠ slots.length)]
      simp
  · intro value a hsnap heq
    subst heq
    have hlen : value.length = slots.length := hc value hsnap
    simp only [paramsarraySet, hsnap]
    rw [if_neg (by omega : ¬value.length ≠ slots.length)]
    simp

/-- Closed witness for `paramsarray_roundtrip_spec`. -/
theorem paramsarray_roundtrip_spec_witness :
    consistentSnap [Slot.scalar "a"]
      (⟨fun _ => PVal.scalar (3 : ℕ), (0 : ℕ), some [3], 0, 0⟩ : Coord ℕ ℕ)
    ∧ (paramsarraySet ["a"] [Slot.scalar "a"] applyAssign (fun _ => 0)
          (paramsarrayGet [Slot.scalar "a"]
            (⟨fun _ => PVal.scalar (3 : ℕ), (0 : ℕ), some [3], 0, 0⟩ : Coord ℕ ℕ)).2
          (paramsarrayGet [Slot.scalar "a"]
            (⟨fun _ => PVal.scalar (3 : ℕ), (0 : ℕ), some [3], 0, 0⟩ : Coord ℕ ℕ)).1
        = ((paramsarrayGet [Slot.scalar "a"]
            (⟨fun _ => PVal.scalar (3 : ℕ), (0 : ℕ), some [3], 0, 0⟩ : Coord ℕ ℕ)).2,
           false)
      ∧ ∀ value a,
          (⟨fun _ => PVal.scalar (3 : ℕ), (0 : ℕ), some [3], 0, 0⟩ :
              Coord ℕ ℕ).snapshot = some a → value = a →
          paramsarraySet ["a"] [Slot.scalar "a"] applyAssign (fun _ => 0)
            (⟨fun _ => PVal.scalar (3 : ℕ), (0 : ℕ), some [3], 0, 0⟩ : Coord ℕ ℕ)
            value
          = ((⟨fun _ => PVal.scalar (3 : ℕ), (0 : ℕ), some [3], 0, 0⟩ :
              Coord ℕ ℕ), false)) :=
  have hc : consistentSnap [Slot.scalar "a"]
      (⟨fun _ => PVal.scalar (3 : ℕ), (0 : ℕ), some [3], 0, 0⟩ : Coord ℕ ℕ) :=
    fun a h => by
      have ha : a = [3] := (Option.some.inj h).symm
      rw [ha]
      rfl
  ⟨hc, paramsarray_roundtrip_spec ["a"] [Slot.scalar "a"] applyAssign
    (fun _ => 0) _ hc⟩

/-! ### Tip encoding (`TreeLikelihood.__init__` sequence loop) -/

/-- Modelled from the spec: the four DNA nucleotide characters. -/
def NTS : List Char := ['A', 'C', 'G', 'T']

/-- Modelled from the spec: the 64 three-nucleotide codons. -/
def allCodons : List (List Char) :=
  NTS.flatMap (fun a => NTS.flatMap (fun b => NTS.map (fun c => [a, b, c])))

/-- Modelled from the spec: the three stop codons of the standard genetic
code, excluded from the 61 sense codons. -/
def stopCodons : List (List Char) :=
  [['T', 'A', 'A'], ['T', 'A', 'G'], ['T', 'G', 'A']]

/-- Modelled from the spec: the 61 non-stop sense codons, the alphabet of
the substitution process (`phydmslib.constants`). -/
def senseCodons : List (List Char) :=
  allCodons.filter (fun c => decide (c ∉ stopCodons))

/-- Modelled from the spec: the codon-to-index lookup table
`phydmslib.constants.CODON_TO_INDEX`, as membership test plus index:
`some i` for the `i`-th sense codon, `none` for any other string. -/
def CODON_TO_INDEX (c : List Char) : Option ℕ := senseCodons.indexOf? c

/-- The whole-codon gap literal. -/
def gapCodon : List Char := ['-', '-', '-']

/-- The 3-character window `seq[3 * r : 3 * r + 3]`. -/
def codonAt (seq : List Char) (r : ℕ) : List Char :=
  (seq.drop (3 * r)).take 3

/-- Outcome of the per-site dispatch in the `__init__` sequence loop. -/
inductive SiteCode where
  | gap : SiteCode
  | codon : ℕ → SiteCode
  | bad : SiteCode
deriving DecidableEq

/-- The dispatch of the `__init__` sequence loop at one site: the literal
`---`, a sense codon (`codon in CODON_TO_INDEX`), or anything else, which
raises `ValueError`. -/
def classifySite (c : List Char) : SiteCode :=
  if c = gapCodon then SiteCode.gap
  else
    match CODON_TO_INDEX c with
    | some i => SiteCode.codon i
    | none => SiteCode.bad

/-- The `__init__` sequence loop from site `r` for `rem` more sites,
building the `tips` row (pre-zeroed by `scipy.zeros`, so a gap leaves `0`)
and the list `nodegaps` of gap sites; a bad codon raises `ValueError`. -/
def encodeFrom (seq : List Char) : ℕ → ℕ → Except String (List ℕ × List ℕ)
  | _, 0 => Except.ok ([], [])
  | r, rem + 1 =>
    match classifySite (codonAt seq r) with
    | SiteCode.gap =>
      match encodeFrom seq (r + 1) rem with
      | Except.ok (ts, gs) => Except.ok (0 :: ts, r :: gs)
      | Except.error e => Except.error e
    | SiteCode.codon i =>
      match encodeFrom seq (r + 1) rem with
      | Except.ok (ts, gs) => Except.ok (i :: ts, gs)
      | Except.error e => Except.error e
    | SiteCode.bad => Except.error "Bad codon"

/-- The whole per-tip encoding loop over sites `0 … nsites−1`. -/
def encodeTip (seq : List Char) (nsites : ℕ) : Except String (List ℕ × List ℕ) :=
  encodeFrom seq 0 nsites

lemma CODON_TO_INDEX_gap : CODON_TO_INDEX gapCodon = none := by decide

lemma classifySite_ne_bad_iff (c : List Char) :
    classifySite c ≠ SiteCode.bad
      ↔ (c = gapCodon ∨ (CODON_TO_INDEX c).isSome = true) := by
  unfold classifySite
  by_cases hg : c = gapCodon
  · simp [hg]
  · cases hidx : CODON_TO_INDEX c <;> simp [hg, hidx]

lemma classifySite_of_gap {c : List Char} (h : c = gapCodon) :
    classifySite c = SiteCode.gap := by
  unfold classifySite
  simp [h]

lemma classifySite_of_codon {c : List Char} {i : ℕ}
    (h : CODON_TO_INDEX c = some i) : classifySite c = SiteCode.codon i := by
  have hg : ¬c = gapCodon := by
    intro hc
    rw [hc, CODON_TO_INDEX_gap] at h
    cases h
  unfold classifySite
  simp [hg, h]

lemma encodeFrom_ok_iff (seq : List Char) :
    ∀ (rem r : ℕ),
      (∃ out, encodeFrom seq r rem = Except.ok out)
        ↔ ∀ k, k < rem → classifySite (codonAt seq (r + k)) ≠ SiteCode.bad
  | 0, r => by simp [encodeFrom]
  | rem + 1, r => by
    cases hcl : classifySite (codonAt seq r) with
    | gap =>
      simp only [encodeFrom, hcl]
      constructor
      · rintro ⟨out, hout⟩ k hk
        cases hrec : encodeFrom seq (r + 1) rem with
        | ok o =>
          have hrecx : ∃ o, encodeFrom seq (r + 1) rem = Except.ok o :=
            ⟨o, hrec⟩
          rw [encodeFrom_ok_iff seq rem (r + 1)] at hrecx
          match k with
          | 0 => rw [Nat.add_zero, hcl]; intro hc; cases hc
          | k + 1 =>
            rw [show r + (k + 1) = r + 1 + k from by omega]
            exact hrecx k (by omega)
        | error e => rw [hrec] at hout; cases hout
      · intro hall
        have hrecx : ∃ o, encodeFrom seq (r + 1) rem = Except.ok o := by
          rw [encodeFrom_ok_iff seq rem (r + 1)]
          intro k hk
          rw [show r + 1 + k = r + (k + 1) from by omega]
          exact hall (k + 1) (by omega)
        obtain ⟨⟨ts, gs⟩, hrec⟩ := hrecx
        exact ⟨(0 :: ts, r :: gs), by rw [hrec]⟩
    | codon i =>
      simp only [encodeFrom, hcl]
      constructor
      · rintro ⟨out, hout⟩ k hk
        cases hrec : encodeFrom seq (r + 1) rem with
        | ok o =>
          have hrecx : ∃ o, encodeFrom seq (r + 1) rem = Except.ok o :=
            ⟨o, hrec⟩
          rw [encodeFrom_ok_iff seq rem (r + 1)] at hrecx
          match k with
          | 0 => rw [Nat.add_zero, hcl]; intro hc; cases hc
          | k + 1 =>
            rw [show r + (k + 1) = r + 1 + k from by omega]
            exact hrecx k (by omega)
        | error e => rw [hrec] at hout; cases hout
      · intro hall
        have hrecx : ∃ o, encodeFrom seq (r + 1) rem = Except.ok o := by
          rw [encodeFrom_ok_iff seq rem (r + 1)]
          intro k hk
          rw [show r + 1 + k = r + (k + 1) from by omega]
          exact hall (k + 1) (by omega)
        obtain ⟨⟨ts, gs⟩, hrec⟩ := hrecx
        exact ⟨(i :: ts, gs), by rw [hrec]⟩
    | bad =>
      simp only [encodeFrom, hcl]
      constructor
      · rintro ⟨out, hout⟩
        cases hout
      · intro hall
        exact absurd hcl (by simpa using hall 0 (by omega))

lemma encodeFrom_ok_props (seq : List Char) :
    ∀ (rem r : ℕ) (ts gs : List ℕ),
      encodeFrom seq r rem = Except.ok (ts, gs) →
      ts.length = rem ∧
      ∀ k, k < rem →
        (classifySite (codonAt seq (r + k)) = SiteCode.gap →
          (r + k) ∈ gs ∧ ts[k]? = some 0)
        ∧ ∀ i, classifySite (codonAt seq (r + k)) = SiteCode.codon i →
            ts[k]? = some i
  | 0, r, ts, gs => by
    intro h
    simp only [encodeFrom] at h
    injection h with h
    injection h with h1 h2
    subst h1
    exact ⟨rfl, fun k hk => absurd hk (by omega)⟩
  | rem + 1, r, ts, gs => by
    intro h
    simp only [encodeFrom] at h
    cases hcl : classifySite (codonAt seq r) with
    | gap =>
      rw [hcl] at h
      cases hrec : encodeFrom seq (r + 1) rem with
      | error e => rw [hrec] at h; cases h
      | ok o =>
        obtain ⟨ts', gs'⟩ := o
        rw [hrec] at h
        injection h with h
        injection h with h1 h2
        subst h1
        subst h2
        obtain ⟨hlen, hprops⟩ := encodeFrom_ok_props seq rem (r + 1) ts' gs' hrec
        refine ⟨by simp [hlen], fun k hk => ?_⟩
        match k with
        | 0 =>
          refine ⟨fun _ => ⟨by simp, by simp⟩, fun i hi => ?_⟩
          rw [Nat.add_zero, hcl] at hi
          cases hi
        | k + 1 =>
          have hk' : k < rem := by omega
          have := hprops k hk'
          rw [show r + 1 + k = r + (k + 1) from by omega] at this
          refine ⟨fun hg => ?_, fun i hi => ?_⟩
          · obtain ⟨hmem, hget⟩ := this.1 hg
            exact ⟨List.mem_cons_of_mem _ hmem, by simpa using hget⟩
          · have hget := this.2 i hi
            simpa using hget
    | codon j =>
      rw [hcl] at h
      cases hrec : encodeFrom seq (r + 1) rem with
      | error e => rw [hrec] at h; cases h
      | ok o =>
        obtain ⟨ts', gs'⟩ := o
        rw [hrec] at h
        injection h with h
        injection h with h1 h2
        subst h1
        subst h2
        obtain ⟨hlen, hprops⟩ := encodeFrom_ok_props seq rem (r + 1) ts' gs' hrec
        refine ⟨by simp [hlen], fun k hk => ?_⟩
        match k with
        | 0 =>
          refine ⟨fun hg => ?_, fun i hi => ?_⟩
          · rw [Nat.add_zero, hcl] at hg
            cases hg
          · rw [Nat.add_zero, hcl] at hi
            injection hi with hi
            subst hi
            simp
        | k + 1 =>
          have hk' : k < rem := by omega
          have := hprops k hk'
          rw [show r + 1 + k = r + (k + 1) from by omega] at this
          refine ⟨fun hg => ?_, fun i hi => ?_⟩
          · obtain ⟨hmem, hget⟩ := this.1 hg
            exact ⟨hmem, by simpa using hget⟩
          · have hget := this.2 i hi
            simpa using hget
    | bad =>
      rw [hcl] at h
      cases h

/-- C8: the per-tip encoding loop succeeds exactly when every 3-character
window of the sequence is the literal `---` or one of the 61 sense codons
(any other window raises `ValueError`), and on success a `---` window at
site `r` puts `r` into the tip's gap list while leaving `tips[tip][r] = 0`,
and a sense-codon window stores that codon's index at `tips[tip][r]`. -/
theorem tipEncoder_spec (seq : List Char) (nsites : ℕ) :
    ((∃ out, encodeTip seq nsites = Except.ok out)
        ↔ ∀ r, r < nsites →
            codonAt seq r = gapCodon
            ∨ (CODON_TO_INDEX (codonAt seq r)).isSome = true)
    ∧ ∀ ts gs, encodeTip seq nsites = Except.ok (ts, gs) →
        ∀ r, r < nsites →
          (codonAt seq r = gapCodon → r ∈ gs ∧ ts[r]? = some 0)
          ∧ ∀ i, CODON_TO_INDEX (codonAt seq r) = some i → ts[r]? = some i := by
  constructor
  · rw [encodeTip, encodeFrom_ok_iff seq nsites 0]
    constructor
    · intro hall r hr
      have := hall r hr
      rw [show (0 : ℕ) + r = r from by omega] at this
      exact (classifySite_ne_bad_iff _).mp this
    · intro hall k hk
      rw [show (0 : ℕ) + k = k from by omega]
      exact (classifySite_ne_bad_iff _).mpr (hall k hk)
  · intro ts gs h r hr
    obtain ⟨hlen, hprops⟩ := encodeFrom_ok_props seq nsites 0 ts gs h
    have := hprops r hr
    rw [show (0 : ℕ) + r = r from by omega] at this
    refine ⟨fun hg => this.1 (classifySite_of_gap hg), fun i hi => ?_⟩
    exact this.2 i (classifySite_of_codon hi)

/-- Closed witness for `tipEncoder_spec`, at the two-site sequence
`ATG---`. -/
theorem tipEncoder_spec_witness :
    ((∃ out, encodeTip ['A', 'T', 'G', '-', '-', '-'] 2 = Except.ok out)
        ↔ ∀ r, r < 2 →
            codonAt ['A', 'T', 'G', '-', '-', '-'] r = gapCodon
            ∨ (CODON_TO_INDEX (codonAt ['A', 'T', 'G', '-', '-', '-'] r)).isSome
                = true)
    ∧ ∀ ts gs,
        encodeTip ['A', 'T', 'G', '-', '-', '-'] 2 = Except.ok (ts, gs) →
        ∀ r, r < 2 →
          (codonAt ['A', 'T', 'G', '-', '-', '-'] r = gapCodon →
            r ∈ gs ∧ ts[r]? = some 0)
          ∧ ∀ i, CODON_TO_INDEX (codonAt ['A', 'T', 'G', '-', '-', '-'] r)
              = some i → ts[r]? = some i :=
  tipEncoder_spec ['A', 'T', 'G', '-', '-', '-'] 2

/-! ### Likelihood kernel (`_computePartialLikelihoods`, `_updateInternals`) -/

/-- Modelled from the spec: the number of sense codons, the constant
`N_CODON = 61` of `phydmslib.constants`. -/
def N_CODON : ℕ := 61

/-- Modelled from the spec:
`phydmslib.numutils.broadcastMatrixVectorMultiply`, the per-site
matrix–vector product `(M v)[r][x] = Σ_y M[r][x][y] · v[r][y]`. -/
def broadcastMatrixVectorMultiply (M : ℕ → ℕ → ℕ → ℝ) (v : ℕ → ℕ → ℝ)
    (r x : ℕ) : ℝ :=
  ∑ y ∈ Finset.range N_CODON, M r x y * v r y

/-- The substitution-model interface the kernel consumes (spec section
6.1): full and tip-column transition matrices `M`, their derivatives `dM`
(which also receive the already-computed `M`, as in the code), the
stationary distribution and its derivative, the declared free parameters
and their current values.  A component index `j` stands for the tuple
`()` of a scalar parameter (always `0`) or `(j,)` of a vector
parameter. -/
structure Model where
  nsites : ℕ
  freeparams : List String
  paramval : String → PVal ℝ
  M : ℝ → ℕ → ℕ → ℕ → ℝ
  Mtip : ℝ → (ℕ → ℕ) → List ℕ → ℕ → ℕ → ℝ
  dM : ℝ → String → (ℕ → ℕ → ℕ → ℝ) → ℕ → ℕ → ℕ → ℕ → ℝ
  dMtip : ℝ → String → (ℕ → ℕ → ℝ) → (ℕ → ℕ) → List ℕ → ℕ → ℕ → ℕ → ℝ
  stationarystate : ℕ → ℕ → ℝ
  dstationarystate : String → ℕ → ℕ → ℕ → ℝ

/-- The fixed per-engine data `_computePartialLikelihoods` reads: node
counts and child indices from the Node Indexer, branch lengths `t`, and
the tip encoding (`tips` rows and `gaps` lists). -/
structure TreeLik where
  ntips : ℕ
  ninternal : ℕ
  rdescend : ℕ → ℕ
  ldescend : ℕ → ℕ
  t : ℕ → ℝ
  tips : ℕ → ℕ → ℕ
  gaps : ℕ → List ℕ

/-- The message `MLc` from child `c`: for a tip child the column-selected
`model.M(tc, tips[c], gaps[c])`, for an internal child
`broadcastMatrixVectorMultiply(model.M(tc), L[c − ntips])`. -/
def MLmsg (md : Model) (e : TreeLik) (L : ℕ → ℕ → ℕ → ℝ) (c : ℕ)
    (r x : ℕ) : ℝ :=
  if c < e.ntips then md.Mtip (e.t c) (e.tips c) (e.gaps c) r x
  else broadcastMatrixVectorMultiply (md.M (e.t c)) (L (c - e.ntips)) r x

/-- The derivative message `dMLc[j]`: for a tip child
`model.dM(tc, p, Mc, tips[c], gaps[c])[j]`, for an internal child
`broadcastMatrixVectorMultiply(model.dM(tc, p, Mc)[j], L[c − ntips])`. -/
def dMLmsg (md : Model) (e : TreeLik) (L : ℕ → ℕ → ℕ → ℝ) (p : String)
    (c j r x : ℕ) : ℝ :=
  if c < e.ntips then
    md.dMtip (e.t c) p (md.Mtip (e.t c) (e.tips c) (e.gaps c)) (e.tips c)
      (e.gaps c) j r x
  else
    broadcastMatrixVectorMultiply (md.dM (e.t c) p (md.M (e.t c)) j)
      (L (c - e.ntips)) r x

/-- The derivative message `MdLc[j]`: `0` for a tip child,
`broadcastMatrixVectorMultiply(Mc, dL[p][c − ntips][j])` for an internal
child. -/
def MdLmsg (md : Model) (e : TreeLik) (dLp : ℕ → ℕ → ℕ → ℕ → ℝ)
    (c j r x : ℕ) : ℝ :=
  if c < e.ntips then 0
  else
    broadcastMatrixVectorMultiply (md.M (e.t c))
      (fun r' y => dLp (c - e.ntips) j r' y) r x

/-- The component index set the derivative loop iterates: `[()]` (encoded
`[0]`) for a scalar parameter, `[(0,), …, (k−1,)]` (encoded `range k`)
for a length-`k` vector parameter. -/
def compIndices (md : Model) (p : String) : List ℕ :=
  match md.paramval p with
  | .scalar _ => [0]
  | .vector v => List.range v.length

/-- The mutable tables of the kernel: `L` indexed `(ni, r, x)` and `dL`
indexed `(param, ni, j, r, x)`, both filled with `-1` at allocation
(`scipy.full(..., -1)`). -/
structure Tables where
  L : ℕ → ℕ → ℕ → ℝ
  dL : String → ℕ → ℕ → ℕ → ℕ → ℝ

/-- The tables as allocated in `__init__`. -/
def initTables : Tables := ⟨fun _ _ _ => -1, fun _ _ _ _ _ => -1⟩

/-- One iteration of the `_computePartialLikelihoods` loop at internal
node number `ni`: `scipy.copyto` writes `L[ni] = MLright * MLleft` first,
then for every free parameter and component index the product rule writes
`dL[param][ni][j]`; the `dML` messages read the already-updated `L`, the
`MdL` messages read the `dL` tables as they stood when the node is
processed. -/
def kernelStep (md : Model) (e : TreeLik) (s : Tables) (ni : ℕ) : Tables :=
  let nright := e.rdescend ni
  let nleft := e.ldescend ni
  let MLright := MLmsg md e s.L nright
  let MLleft := MLmsg md e s.L nleft
  let Lnew : ℕ → ℕ → ℕ → ℝ := fun ni' r x =>
    if ni' = ni then MLright r x * MLleft r x else s.L ni' r x
  let dLnew : String → ℕ → ℕ → ℕ → ℕ → ℝ := fun p ni' j r x =>
    if ni' = ni ∧ p ∈ md.freeparams ∧ j ∈ compIndices md p then
      (dMLmsg md e Lnew p nright j r x + MdLmsg md e (s.dL p) nright j r x)
          * MLleft r x
        + MLright r x
          * (dMLmsg md e Lnew p nleft j r x
              + MdLmsg md e (s.dL p) nleft j r x)
    else s.dL p ni' j r x
  ⟨Lnew, dLnew⟩

/-- The tables after the first `k` iterations of the loop. -/
def tablesUpTo (md : Model) (e : TreeLik) (k : ℕ) : Tables :=
  (List.range k).foldl (kernelStep md e) initTables

/-- Embedding of `_computePartialLikelihoods`: run the loop over all
internal node numbers `0 … ninternal − 1` in ascending order. -/
def computeTables (md : Model) (e : TreeLik) : Tables :=
  tablesUpTo md e e.ninternal

/-- The per-site likelihood
`sitelik = scipy.sum(self.L[-1] * model.stationarystate, axis=1)` of
`_updateInternals`; the row `L[-1]` is row `ninternal − 1`. -/
def sitelik (md : Model) (e : TreeLik) (r : ℕ) : ℝ :=
  ∑ x ∈ Finset.range N_CODON,
    (computeTables md e).L (e.ninternal - 1) r x * md.stationarystate r x

/-- The per-site log likelihood `siteloglik = scipy.log(sitelik)`; the
external elementwise logarithm `scipy.log` is passed in as `lg` (the
theorems hold for every `lg`, in particular `Real.log`). -/
def siteloglik (lg : ℝ → ℝ) (md : Model) (e : TreeLik) (r : ℕ) : ℝ :=
  lg (sitelik md e r)

/-- The total log likelihood `loglik = scipy.sum(self.siteloglik)`. -/
def loglik (lg : ℝ → ℝ) (md : Model) (e : TreeLik) : ℝ :=
  ∑ r ∈ Finset.range md.nsites, siteloglik lg md e r

lemma tablesUpTo_succ (md : Model) (e : TreeLik) (k : ℕ) :
    tablesUpTo md e (k + 1) = kernelStep md e (tablesUpTo md e k) k := by
  unfold tablesUpTo
  rw [List.range_succ, List.foldl_append]
  rfl

lemma kernelStep_L_ne (md : Model) (e : TreeLik) (s : Tables) {ni ni' : ℕ}
    (h : ni' ≠ ni) (r x : ℕ) :
    (kernelStep md e s ni).L ni' r x = s.L ni' r x := by
  simp only [kernelStep]
  rw [if_neg h]

lemma kernelStep_dL_ne (md : Model) (e : TreeLik) (s : Tables) {ni ni' : ℕ}
    (p : String) (h : ni' ≠ ni) (j r x : ℕ) :
    (kernelStep md e s ni).dL p ni' j r x = s.dL p ni' j r x := by
  simp only [kernelStep]
  rw [if_neg (fun hc => h hc.1)]

lemma tablesUpTo_L_stable (md : Model) (e : TreeLik) {i k k' : ℕ}
    (hik : i < k) (hkk : k ≤ k') (r x : ℕ) :
    (tablesUpTo md e k').L i r x = (tablesUpTo md e k).L i r x := by
  induction k', hkk using Nat.le_induction with
  | base => rfl
  | succ n hn ih =>
    rw [tablesUpTo_succ, kernelStep_L_ne md e _ (by omega : i ≠ n) r x]
    exact ih

lemma tablesUpTo_dL_stable (md : Model) (e : TreeLik) {i k k' : ℕ}
    (p : String) (hik : i < k) (hkk : k ≤ k') (j r x : ℕ) :
    (tablesUpTo md e k').dL p i j r x = (tablesUpTo md e k).dL p i j r x := by
  induction k', hkk using Nat.le_induction with
  | base => rfl
  | succ n hn ih =>
    rw [tablesUpTo_succ, kernelStep_dL_ne md e _ p (by omega : i ≠ n) j r x]
    exact ih

lemma MLmsg_congr (md : Model) (e : TreeLik) {L L' : ℕ → ℕ → ℕ → ℝ} (c : ℕ)
    (h : e.ntips ≤ c → ∀ r' y, L (c - e.ntips) r' y = L' (c - e.ntips) r' y)
    (r x : ℕ) : MLmsg md e L c r x = MLmsg md e L' c r x := by
  unfold MLmsg
  split
  · rfl
  · next hc =>
    unfold broadcastMatrixVectorMultiply
    exact Finset.sum_congr rfl fun y _ => by rw [h (by omega) r y]

lemma dMLmsg_congr (md : Model) (e : TreeLik) {L L' : ℕ → ℕ → ℕ → ℝ}
    (p : String) (c : ℕ)
    (h : e.ntips ≤ c → ∀ r' y, L (c - e.ntips) r' y = L' (c - e.ntips) r' y)
    (j r x : ℕ) : dMLmsg md e L p c j r x = dMLmsg md e L' p c j r x := by
  unfold dMLmsg
  split
  · rfl
  · next hc =>
    unfold broadcastMatrixVectorMultiply
    exact Finset.sum_congr rfl fun y _ => by rw [h (by omega) r y]

lemma MdLmsg_congr (md : Model) (e : TreeLik)
    {d d' : ℕ → ℕ → ℕ → ℕ → ℝ} (c : ℕ)
    (h : e.ntips ≤ c →
      ∀ j' r' y, d (c - e.ntips) j' r' y = d' (c - e.ntips) j' r' y)
    (j r x : ℕ) : MdLmsg md e d c j r x = MdLmsg md e d' c j r x := by
  unfold MdLmsg
  split
  · rfl
  · next hc =>
    unfold broadcastMatrixVectorMultiply
    exact Finset.sum_congr rfl fun y _ => by
      show md.M (e.t c) r x y * d (c - e.ntips) j r y
        = md.M (e.t c) r x y * d' (c - e.ntips) j r y
      rw [h (by omega) j r y]

lemma kernelStep_L_self (md : Model) (e : TreeLik) (s : Tables) (ni r x : ℕ) :
    (kernelStep md e s ni).L ni r x
      = MLmsg md e s.L (e.rdescend ni) r x
        * MLmsg md e s.L (e.ldescend ni) r x := by
  simp only [kernelStep]
  simp

lemma kernelStep_dL_self (md : Model) (e : TreeLik) (s : Tables) (p : String)
    (hp : p ∈ md.freeparams) {j : ℕ} (hj : j ∈ compIndices md p)
    (ni r x : ℕ) :
    (kernelStep md e s ni).dL p ni j r x
      = (dMLmsg md e (kernelStep md e s ni).L p (e.rdescend ni) j r x
          + MdLmsg md e (s.dL p) (e.rdescend ni) j r x)
          * MLmsg md e s.L (e.ldescend ni) r x
        + MLmsg md e s.L (e.rdescend ni) r x
          * (dMLmsg md e (kernelStep md e s ni).L p (e.ldescend ni) j r x
            + MdLmsg md e (s.dL p) (e.ldescend ni) j r x) := by
  simp only [kernelStep]
  rw [if_pos ⟨trivial, hp, hj⟩]

/-- C1: after the kernel runs (at construction and after every successful
parameter update), for every internal node number `ni = m − ntips`, site
`r` and codon `x`, the stored partial likelihood satisfies
`L[ni][r][x] = MLright[r][x] · MLleft[r][x]`, where a tip child `c`
contributes the message `model.M(t[c], tips[c], gaps[c])` and an internal
child contributes `Σ_y model.M(t[c])[r][x][y] · L[c − ntips][r][y]` over
the final table; the ascending loop order makes each child's entry final
before its parent's entry is written. -/
theorem computePartialLikelihoods_L_spec (md : Model) (e : TreeLik)
    (hchild : ∀ k, k < e.ninternal →
      e.rdescend k < e.ntips + k ∧ e.ldescend k < e.ntips + k)
    (ni : ℕ) (hni : ni < e.ninternal) (r x : ℕ) :
    (computeTables md e).L ni r x
      = MLmsg md e (computeTables md e).L (e.rdescend ni) r x
        * MLmsg md e (computeTables md e).L (e.ldescend ni) r x := by
  simp only [computeTables]
  obtain ⟨hr, hl⟩ := hchild ni hni
  have hML : ∀ c, c < e.ntips + ni →
      MLmsg md e (tablesUpTo md e ni).L c r x
        = MLmsg md e (tablesUpTo md e e.ninternal).L c r x := by
    intro c hc
    refine MLmsg_congr md e c (fun htc r' y => ?_) r x
    have hlt : c - e.ntips < ni := by omega
    exact (tablesUpTo_L_stable md e hlt (by omega) r' y).symm
  have h1 : (tablesUpTo md e e.ninternal).L ni r x
      = (tablesUpTo md e (ni + 1)).L ni r x :=
    tablesUpTo_L_stable md e (by omega) (by omega) r x
  rw [h1, tablesUpTo_succ, kernelStep_L_self md e _ ni r x,
    hML _ hr, hML _ hl]

/-- A concrete two-tip, one-internal-node engine used to witness the
kernel theorems. -/
def witnessEngine : TreeLik :=
  ⟨2, 1, fun _ => 0, fun _ => 1, fun _ => 1, fun _ _ => 0, fun _ => []⟩

/-- A concrete one-site, one-scalar-parameter model used to witness the
kernel theorems. -/
def witnessModel : Model :=
  ⟨1, ["mu"], fun _ => PVal.scalar 1, fun _ _ _ _ => 1, fun _ _ _ _ _ => 1,
   fun _ _ _ _ _ _ _ => 0, fun _ _ _ _ _ _ _ _ => 0, fun _ _ => 1,
   fun _ _ _ _ => 0⟩

/-- Closed witness for `computePartialLikelihoods_L_spec`. -/
theorem computePartialLikelihoods_L_spec_witness :
    (∀ k, k < witnessEngine.ninternal →
      witnessEngine.rdescend k < witnessEngine.ntips + k
        ∧ witnessEngine.ldescend k < witnessEngine.ntips + k)
    ∧ 0 < witnessEngine.ninternal
    ∧ (computeTables witnessModel witnessEngine).L 0 0 0
      = MLmsg witnessModel witnessEngine
          (computeTables witnessModel witnessEngine).L
          (witnessEngine.rdescend 0) 0 0
        * MLmsg witnessModel witnessEngine
            (computeTables witnessModel witnessEngine).L
            (witnessEngine.ldescend 0) 0 0 :=
  ⟨by decide, by decide,
    computePartialLikelihoods_L_spec witnessModel witnessEngine (by decide)
      0 (by decide) 0 0⟩

/-- C2: after every recomputation, for every free parameter `p`, every
component index `j` of `p` and every internal node number
`ni = m − ntips`, the stored derivative table satisfies
`dL[p][ni][j] = (dMLright[j] + MdLright[j]) · MLleft
+ MLright · (dMLleft[j] + MdLleft[j])`, where a tip child contributes
`dMLc[j] = model.dM(tc, p, Mc, tips[c], gaps[c])[j]` and `MdLc[j] = 0`,
and an internal child contributes
`dMLc[j][r][x] = Σ_y dMc[j][r][x][y] · L[c − ntips][r][y]` and
`MdLc[j][r][x] = Σ_y Mc[r][x][y] · dL[p][c − ntips][j][r][y]` over the
final tables. -/
theorem computePartialLikelihoods_dL_spec (md : Model) (e : TreeLik)
    (hchild : ∀ k, k < e.ninternal →
      e.rdescend k < e.ntips + k ∧ e.ldescend k < e.ntips + k)
    (p : String) (hp : p ∈ md.freeparams) (j : ℕ) (hj : j ∈ compIndices md p)
    (ni : ℕ) (hni : ni < e.ninternal) (r x : ℕ) :
    (computeTables md e).dL p ni j r x
      = (dMLmsg md e (computeTables md e).L p (e.rdescend ni) j r x
          + MdLmsg md e ((computeTables md e).dL p) (e.rdescend ni) j r x)
          * MLmsg md e (computeTables md e).L (e.ldescend ni) r x
        + MLmsg md e (computeTables md e).L (e.rdescend ni) r x
          * (dMLmsg md e (computeTables md e).L p (e.ldescend ni) j r x
            + MdLmsg md e ((computeTables md e).dL p) (e.ldescend ni) j r x)
    := by
  simp only [computeTables]
  obtain ⟨hr, hl⟩ := hchild ni hni
  have hML : ∀ c, c < e.ntips + ni →
      MLmsg md e (tablesUpTo md e ni).L c r x
        = MLmsg md e (tablesUpTo md e e.ninternal).L c r x := by
    intro c hc
    refine MLmsg_congr md e c (fun htc r' y => ?_) r x
    have hlt : c - e.ntips < ni := by omega
    exact (tablesUpTo_L_stable md e hlt (by omega) r' y).symm
  have hdML : ∀ c, c < e.ntips + ni →
      dMLmsg md e (kernelStep md e (tablesUpTo md e ni) ni).L p c j r x
        = dMLmsg md e (tablesUpTo md e e.ninternal).L p c j r x := by
    intro c hc
    refine dMLmsg_congr md e p c (fun htc r' y => ?_) j r x
    have hlt : c - e.ntips < ni := by omega
    rw [kernelStep_L_ne md e _ (by omega : c - e.ntips ≠ ni) r' y]
    exact (tablesUpTo_L_stable md e hlt (by omega) r' y).symm
  have hMdL : ∀ c, c < e.ntips + ni →
      MdLmsg md e ((tablesUpTo md e ni).dL p) c j r x
        = MdLmsg md e ((tablesUpTo md e e.ninternal).dL p) c j r x := by
    intro c hc
    refine MdLmsg_congr md e c (fun htc j' r' y => ?_) j r x
    have hlt : c - e.ntips < ni := by omega
    exact (tablesUpTo_dL_stable md e p hlt (by omega) j' r' y).symm
  have h1 : (tablesUpTo md e e.ninternal).dL p ni j r x
      = (tablesUpTo md e (ni + 1)).dL p ni j r x :=
    tablesUpTo_dL_stable md e p (by omega) (by omega) j r x
  rw [h1, tablesUpTo_succ, kernelStep_dL_self md e _ p hp hj ni r x,
    hdML _ hr, hdML _ hl, hMdL _ hr, hMdL _ hl, hML _ hr, hML _ hl]

/-- Closed witness for `computePartialLikelihoods_dL_spec`. -/
theorem computePartialLikelihoods_dL_spec_witness :
    (∀ k, k < witnessEngine.ninternal →
      witnessEngine.rdescend k < witnessEngine.ntips + k
        ∧ witnessEngine.ldescend k < witnessEngine.ntips + k)
    ∧ "mu" ∈ witnessModel.freeparams
    ∧ 0 ∈ compIndices witnessModel "mu"
    ∧ 0 < witnessEngine.ninternal
    ∧ (computeTables witnessModel witnessEngine).dL "mu" 0 0 0 0
      = (dMLmsg witnessModel witnessEngine
            (computeTables witnessModel witnessEngine).L "mu"
            (witnessEngine.rdescend 0) 0 0 0
          + MdLmsg witnessModel witnessEngine
              ((computeTables witnessModel witnessEngine).dL "mu")
              (witnessEngine.rdescend 0) 0 0 0)
          * MLmsg witnessModel witnessEngine
              (computeTables witnessModel witnessEngine).L
              (witnessEngine.ldescend 0) 0 0
        + MLmsg witnessModel witnessEngine
            (computeTables witnessModel witnessEngine).L
            (witnessEngine.rdescend 0) 0 0
          * (dMLmsg witnessModel witnessEngine
                (computeTables witnessModel witnessEngine).L "mu"
                (witnessEngine.ldescend 0) 0 0 0
            + MdLmsg witnessModel witnessEngine
                ((computeTables witnessModel witnessEngine).dL "mu")
                (witnessEngine.ldescend 0) 0 0 0) :=
  ⟨by decide, by decide, by decide, by decide,
    computePartialLikelihoods_dL_spec witnessModel witnessEngine (by decide)
      "mu" (by decide) 0 (by decide) 0 (by decide) 0 0⟩

/-- C3: after every recomputation, for every site `r`, the stored per-site
log likelihood is `siteloglik[r] = log(Σ_x L[root − ntips][r][x] · π[r][x])`
with `π = model.stationarystate` and `root = nnodes − 1`, and the total is
`loglik = Σ_r siteloglik[r]` exactly — no rescaling is applied between the
per-site logs and the total. -/
theorem updateInternals_loglik_spec (lg : ℝ → ℝ) (md : Model) (e : TreeLik) :
    (∀ r, siteloglik lg md e r
        = lg (∑ x ∈ Finset.range N_CODON,
            (computeTables md e).L (e.ntips + e.ninternal - 1 - e.ntips) r x
              * md.stationarystate r x))
    ∧ loglik lg md e = ∑ r ∈ Finset.range md.nsites, siteloglik lg md e r := by
  constructor
  · intro r
    rw [show e.ntips + e.ninternal - 1 - e.ntips = e.ninternal - 1 from
      by omega]
    rfl
  · rfl

end Phydms
